import Mathlib

/-!
DHT11 sensor reader (`dht11_sensor.c`).

A shallow embedding of `read_DTH11_data`, of the record formatting of
`WriteReading` and of the numeric option parsing of `main`, followed by the
properties of the decoder.

* The line is the sequence of levels returned by successive `digitalRead`
  calls (`Nat → Bool`, `true` = HIGH).
* `uint8_t` variables are natural numbers with an explicit `% 256` at every
  increment.
* `dht11_data` is an array of five cells; a load or store outside it is an
  error result, as is a `sprintf` that does not fit its buffer.
-/

namespace DHT11

/-! ## Data model -/

/-- The constant `MAXTIMINGS` (`#define MAXTIMINGS 85`). -/
def MAXTIMINGS : Nat := 85

/-- HIGH level of the line (wiringPi `HIGH`). -/
def HIGH : Bool := true

/-- Ways a run of the model can fail to be a defined run of the C program. -/
inductive Err where
  /-- the fuel given to a `while` loop ran out -/
  | outOfFuel
  /-- an array or buffer was addressed at `index`, outside its declaration -/
  | outOfBounds (index : Nat)
  deriving DecidableEq, Repr

/-- The global `int dht11_data[5]`. -/
structure Data where
  d0 : Nat
  d1 : Nat
  d2 : Nat
  d3 : Nat
  d4 : Nat
  deriving DecidableEq, Repr

/-- Reading `dht11_data[k]`. -/
def Data.load (a : Data) (k : Nat) : Except Err Nat :=
  if k = 0 then .ok a.d0
  else if k = 1 then .ok a.d1
  else if k = 2 then .ok a.d2
  else if k = 3 then .ok a.d3
  else if k = 4 then .ok a.d4
  else .error (.outOfBounds k)

/-- Writing `dht11_data[k] = v`. -/
def Data.store (a : Data) (k v : Nat) : Except Err Data :=
  if k = 0 then .ok { a with d0 := v }
  else if k = 1 then .ok { a with d1 := v }
  else if k = 2 then .ok { a with d2 := v }
  else if k = 3 then .ok { a with d3 := v }
  else if k = 4 then .ok { a with d4 := v }
  else .error (.outOfBounds k)

/-- Decoder state inside the `for` loop: the array and the bit counter `j`. -/
structure Frame where
  data : Data
  j : Nat
  deriving DecidableEq, Repr

/-! ## `read_DTH11_data` -/

/-- Line 94: `dht11_data[0] = dht11_data[1] = ... = dht11_data[4] = 0;`
(the assignments run right to left). -/
def clear (a : Data) : Except Err Data := do
  let a ← a.store 4 0
  let a ← a.store 3 0
  let a ← a.store 2 0
  let a ← a.store 1 0
  a.store 0 0

/-- Lines 115-119: the `while` loop that counts ticks until the level differs
from `laststate`.  `pos` is the number of `digitalRead` calls made so far;
the result is the counter and the new number of calls. -/
def measure (line : Nat → Bool) (laststate : Bool) :
    Nat → Nat → Nat → Except Err (Nat × Nat)
  | 0, _, _ => .error .outOfFuel
  | fuel + 1, pos, counter =>
    if line pos = laststate then
      let counter1 := (counter + 1) % 256
      if counter1 = 255 then .ok (counter1, pos + 1)
      else measure line laststate fuel (pos + 1) counter1
    else .ok (counter, pos + 1)

/-- Lines 114-120 on the line: `counter = 0`, the `while` loop, then
`laststate = digitalRead(DHTPIN)`.  The state is `(laststate, pos)`. -/
def lineMeasure (fuel : Nat) (line : Nat → Bool) :
    Bool × Nat → Except Err (Nat × (Bool × Nat))
  | (laststate, pos) => do
    let (counter, p) ← measure line laststate fuel pos 0
    pure (counter, (line p, p + 1))

/-- Lines 114-120 on a recorded trace: the next duration of the trace is the
counter; when the trace is exhausted the line no longer changes and the
measurement saturates at 255. -/
def traceMeasure : List Nat → Except Err (Nat × List Nat)
  | [] => .ok (255, [])
  | c :: rest => .ok (c, rest)

/-- Lines 125-129: the decoding of one measurement. -/
def decodeStep (i counter : Nat) (fr : Frame) : Except Err Frame :=
  if i ≥ 4 ∧ i % 2 = 0 then do
    let x ← fr.data.load (fr.j / 8)
    let a1 ← fr.data.store (fr.j / 8) (x <<< 1)
    let a2 ←
      if counter > 16 then do
        let y ← a1.load (fr.j / 8)
        a1.store (fr.j / 8) (y ||| 1)
      else pure a1
    pure { data := a2, j := (fr.j + 1) % 256 }
  else pure fr

/-- Lines 113-130: the `for` loop, `n` iterations left, over a source of
measurements `meas` with state `σ`. -/
def forLoop {σ : Type} (meas : σ → Except Err (Nat × σ)) :
    Nat → Nat → σ → Frame → Except Err Frame
  | 0, _, _, fr => .ok fr
  | n + 1, i, s, fr => do
    let (counter, s1) ← meas s
    if counter = 255 then pure fr
    else do
      let fr1 ← decodeStep i counter fr
      forLoop meas n ((i + 1) % 256) s1 fr1

/-- Lines 134-140: the test on the bit count and the checksum; the result is
the return value and the content of `dht11_data`. -/
def finish (fr : Frame) : Nat × Data :=
  if fr.j ≥ 40 ∧
      fr.data.d4 = (fr.data.d0 + fr.data.d1 + fr.data.d2 + fr.data.d3) &&& 0xFF then
    (1, fr.data)
  else (0, fr.data)

/-- The function `read_DTH11_data` on a line; `init` is what `dht11_data`
held before the call, `fuel` bounds each `while` loop. -/
def read_DTH11_data (fuel : Nat) (line : Nat → Bool) (init : Data) :
    Except Err (Nat × Data) := do
  let a ← clear init
  let fr ← forLoop (lineMeasure fuel line) MAXTIMINGS 0 (HIGH, 0) { data := a, j := 0 }
  pure (finish fr)

/-- The decoding loop on a recorded trace. -/
def decodeTrace (t : List Nat) : Except Err Frame :=
  forLoop traceMeasure MAXTIMINGS 0 t { data := ⟨0, 0, 0, 0, 0⟩, j := 0 }

/-- The function `read_DTH11_data` on a recorded trace of durations. -/
def readTrace (t : List Nat) (init : Data) : Except Err (Nat × Data) := do
  let a ← clear init
  let fr ← forLoop traceMeasure MAXTIMINGS 0 t { data := a, j := 0 }
  pure (finish fr)

/-- The measurements the `for` loop performs (lines 113-121), in order,
the saturated one included. -/
def sampleLog {σ : Type} (meas : σ → Except Err (Nat × σ)) :
    Nat → σ → Except Err (List Nat)
  | 0, _ => .ok []
  | n + 1, s => do
    let (counter, s1) ← meas s
    if counter = 255 then pure [counter]
    else do
      let rest ← sampleLog meas n s1
      pure (counter :: rest)

/-- The recorded trace of a log: the measurements that did not saturate. -/
def recorded (log : List Nat) : List Nat := log.filter (fun c => c ≠ 255)

/-! ## `WriteReading` -/

/-- The fields of `struct tm` that `WriteReading` prints. -/
structure Tm where
  tm_sec : Nat
  tm_min : Nat
  tm_hour : Nat
  tm_mday : Nat
  tm_mon : Nat
  tm_year : Nat
  deriving DecidableEq, Repr

/-- The conversion `%0<width>d` of a non-negative value, as character codes:
its decimal digits, padded on the left with `0` up to `width` characters. -/
def fmtd (width n : Nat) : List Nat :=
  List.replicate (width - (Nat.toDigits 10 n).length) 48 ++
    (Nat.toDigits 10 n).map Char.toNat

/-- A `sprintf` of the characters `out` into a buffer of `size` bytes: the
characters and the terminating NUL must fit. -/
def sprintfInto (size : Nat) (out : List Nat) : Except Err (List Nat) :=
  if out.length + 1 ≤ size then .ok out else .error (.outOfBounds size)

/-- Lines 172-187 of `WriteReading`: the data-vector. -/
def WriteReading (t_Str : Tm) (dht11_data : Data) : Except Err (List Nat) := do
  let strTimeStampDay ← sprintfInto 3 (fmtd 2 t_Str.tm_mday)
  let strTimeStampMonth ← sprintfInto 3 (fmtd 2 (t_Str.tm_mon + 1))
  let strTimeStampYear ← sprintfInto 5 (fmtd 4 (t_Str.tm_year + 1900))
  let strTimeStampHour ← sprintfInto 3 (fmtd 2 t_Str.tm_hour)
  let strTimeStampMinute ← sprintfInto 3 (fmtd 2 t_Str.tm_min)
  let strTimeStampSecond ← sprintfInto 3 (fmtd 2 t_Str.tm_sec)
  let strTimeStamp ← sprintfInto 15
    (strTimeStampYear ++ strTimeStampMonth ++ strTimeStampDay ++ strTimeStampHour ++
      strTimeStampMinute ++ strTimeStampSecond)
  let strHumiTemp ← sprintfInto 9
    (fmtd 2 dht11_data.d0 ++ fmtd 2 dht11_data.d1 ++ fmtd 2 dht11_data.d2 ++
      fmtd 2 dht11_data.d3)
  sprintfInto 25 (strTimeStamp ++ strHumiTemp)

/-! ## Option parsing in `main` -/

/-- `strncpy(dest, src, n)` for `n` within `dest`: the first `n` characters of
the string `src` (given without its terminating NUL), padded with NUL up to
`n` when `src` is shorter; the rest of `dest` is left as it was. -/
def strncpy (dest src : List Nat) (n : Nat) : List Nat :=
  src.take n ++ List.replicate (n - src.length) 0 ++ dest.drop n

/-- C `isspace` in the C locale. -/
def isspace (c : Nat) : Bool := c = 32 || (9 ≤ c && c ≤ 13)

/-- C `isdigit`. -/
def isdigit (c : Nat) : Bool := 48 ≤ c && c ≤ 57

/-- The digit loop of `atoi` over the bytes left in a buffer of `size` bytes;
it stops at the first byte that is not a digit. -/
def atoiDigits (size : Nat) : List Nat → Nat → Except Err Nat
  | [], _ => .error (.outOfBounds size)
  | c :: rest, acc =>
    if isdigit c then atoiDigits size rest (10 * acc + (c - 48)) else .ok acc

/-- The optional sign of `atoi`. -/
def atoiSign (size : Nat) : List Nat → Except Err Int
  | [] => .error (.outOfBounds size)
  | c :: rest =>
    if c = 45 then (fun v : Nat => - (v : Int)) <$> atoiDigits size rest 0
    else if c = 43 then (fun v : Nat => (v : Int)) <$> atoiDigits size rest 0
    else (fun v : Nat => (v : Int)) <$> atoiDigits size (c :: rest) 0

/-- The leading white space of `atoi`. -/
def atoiSpace (size : Nat) : List Nat → Except Err Int
  | [] => .error (.outOfBounds size)
  | c :: rest => if isspace c then atoiSpace size rest else atoiSign size (c :: rest)

/-- C `atoi` on the bytes of a buffer; reading past the buffer is an error. -/
def atoi (buf : List Nat) : Except Err Int := atoiSpace buf.length buf

/-- The variables of `main` that the argument loop sets. -/
structure Options where
  bVerbose : Nat
  bOutputFile : Nat
  strOutputFile : List Nat
  nMinutes : Int
  nReadings : Int
  nInterval : Int
  strTemp : List Nat
  deriving DecidableEq, Repr

/-- Lines 249-269: the body of the argument loop for one argument `arg`
(character codes, without the terminating NUL). -/
def parseArg (arg : List Nat) (o : Options) : Except Err Options := do
  -- "-v" or "-V"
  let o := if arg = [45, 118] ∨ arg = [45, 86] then { o with bVerbose := 1 } else o
  -- "-m:" or "-M:"
  let o ←
    if arg.take 3 = [45, 109, 58] ∨ arg.take 3 = [45, 77, 58] then do
      let strTemp := strncpy o.strTemp (arg.drop 3) 4
      let v ← atoi strTemp
      pure { o with strTemp := strTemp, nMinutes := v }
    else pure o
  -- "-r:" or "-R:"
  let o ←
    if arg.take 3 = [45, 114, 58] ∨ arg.take 3 = [45, 82, 58] then do
      let strTemp := strncpy o.strTemp (arg.drop 3) 4
      let v ← atoi strTemp
      pure { o with strTemp := strTemp, nReadings := v }
    else pure o
  -- "-t:" or "-T:"
  let o ←
    if arg.take 3 = [45, 116, 58] ∨ arg.take 3 = [45, 84, 58] then do
      let strTemp := strncpy o.strTemp (arg.drop 3) 4
      let v ← atoi strTemp
      pure { o with strTemp := strTemp, nInterval := v }
    else pure o
  -- "-o:" or "-O:"
  if arg.take 3 = [45, 111, 58] ∨ arg.take 3 = [45, 79, 58] then
    pure { o with bOutputFile := 1, strOutputFile := strncpy o.strOutputFile (arg.drop 3) 75 }
  else pure o

/-- The variables of `main` before the argument loop; `strTemp` is the
content of the uninitialised local buffer `char strTemp[10]`. -/
def initialOptions (strTemp : List Nat) : Options :=
  { bVerbose := 0, bOutputFile := 0, strOutputFile := List.replicate 80 0,
    nMinutes := 0, nReadings := 0, nInterval := 1, strTemp := strTemp }

/-! ## Notions used to state the properties -/

/-- Cell `m` of the array, 0 outside it. -/
def Data.get (a : Data) (m : Nat) : Nat :=
  if m = 0 then a.d0 else if m = 1 then a.d1 else if m = 2 then a.d2
  else if m = 3 then a.d3 else if m = 4 then a.d4 else 0

/-- The array after bit `b` is shifted into cell `k`. -/
def Data.push (a : Data) (k b : Nat) : Data :=
  if k = 0 then { a with d0 := 2 * a.d0 + b }
  else if k = 1 then { a with d1 := 2 * a.d1 + b }
  else if k = 2 then { a with d2 := 2 * a.d2 + b }
  else if k = 3 then { a with d3 := 2 * a.d3 + b }
  else if k = 4 then { a with d4 := 2 * a.d4 + b }
  else a

/-- The bit a duration decodes to. -/
def bitOf (counter : Nat) : Nat := if counter > 16 then 1 else 0

/-- Value of the `len` bits `f s, ..., f (s + len - 1)`, most significant first. -/
def bitsVal (f : Nat → Nat) (s : Nat) : Nat → Nat
  | 0 => 0
  | len + 1 => 2 * bitsVal f s len + f (s + len)

/-- The decoder state after `n` bits `f 0, ..., f (n - 1)` were shifted in. -/
def Decoded (f : Nat → Nat) (fr : Frame) (n : Nat) : Prop :=
  fr.j = n ∧ ∀ m, m < 5 → fr.data.get m = bitsVal f (8 * m) (min n (8 * m + 8) - 8 * m)

/-- Bit `k` (0 = first transmitted) of the five bytes, each byte most
significant bit first. -/
def frameBit (a : Data) (k : Nat) : Nat := a.get (k / 8) / 2 ^ (7 - k % 8) % 2

/-- The trace `t` has 84 recorded transitions, and the durations of its data
transitions 4, 6, ..., 82 encode the 40 bits of `a`: above 16 ticks for a 1. -/
def Encodes (t : List Nat) (a : Data) : Prop :=
  t.length = 84 ∧ (∀ c ∈ t, c < 255) ∧
    ∀ k, k < 40 → (16 < t.getD (4 + 2 * k) 0 ↔ frameBit a k = 1)

instance (t : List Nat) (a : Data) : Decidable (Encodes t a) := by
  unfold Encodes; infer_instance

/-- The bits decoded from the data transitions of a trace. -/
def traceBit (t : List Nat) (k : Nat) : Nat := bitOf (t.getD (4 + 2 * k) 0)

/-- A trace that encodes `a`: four preamble transitions, then for every bit a
LOW-to-HIGH transition of 12 ticks and a HIGH pulse of 9 or 28 ticks. -/
def encodeTrace (a : Data) : List Nat :=
  [3, 20, 20, 12] ++
    (List.range 40).flatMap (fun k => [if frameBit a k = 1 then 28 else 9, 12])

/-- The decoding steps of lines 125-129 applied to the measurements of a list
in order, the first of them at loop index `i`; nothing else is decoded. -/
def decodeAll : Nat → List Nat → Frame → Except Err Frame
  | _, [], fr => .ok fr
  | i, c :: rest, fr => (decodeStep i c fr).bind (decodeAll (i + 1) rest)

/-- The line used in the examples: it changes level every 20 reads up to read
280 and stays HIGH from then on. -/
def fadingLine : Nat → Bool := fun n => decide (n % 40 < 20 ∨ 280 ≤ n)

/-! ## Properties -/

theorem shl_one (x : Nat) : x <<< 1 = 2 * x := by
  rw [Nat.shiftLeft_eq]; omega

theorem shl_or_one (x : Nat) : (2 * x) ||| 1 = 2 * x + 1 := by
  have h := Nat.mul_add_lt_is_or (i := 1) (b := 1) (by decide) x
  simpa using h.symm

theorem clear_eq (init : Data) : clear init = .ok ⟨0, 0, 0, 0, 0⟩ := by rfl

theorem decodeStep_skip (i c : Nat) (fr : Frame) (h : ¬ (i ≥ 4 ∧ i % 2 = 0)) :
    decodeStep i c fr = .ok fr := by
  simp only [decodeStep, if_neg h]; rfl

theorem decodeStep_push (i c : Nat) (fr : Frame) (h4 : 4 ≤ i) (hev : i % 2 = 0)
    (hj : fr.j < 40) :
    decodeStep i c fr = .ok ⟨fr.data.push (fr.j / 8) (bitOf c), fr.j + 1⟩ := by
  have hk : fr.j / 8 = 0 ∨ fr.j / 8 = 1 ∨ fr.j / 8 = 2 ∨ fr.j / 8 = 3 ∨ fr.j / 8 = 4 := by
    omega
  have hm : (fr.j + 1) % 256 = fr.j + 1 := by omega
  have hc : (i ≥ 4 ∧ i % 2 = 0) := ⟨h4, hev⟩
  simp only [decodeStep, if_pos hc, hm, bitOf]
  by_cases h16 : c > 16
  · rcases hk with hk | hk | hk | hk | hk <;>
      simp [hk, h16, Data.load, Data.store, Data.push, bind, Except.bind, pure, Except.pure,
        shl_one, shl_or_one]
  · rcases hk with hk | hk | hk | hk | hk <;>
      simp [hk, h16, Data.load, Data.store, Data.push, bind, Except.bind, pure, Except.pure,
        shl_one]

theorem get_push_same (a : Data) (m b : Nat) (hm : m < 5) :
    (a.push m b).get m = 2 * a.get m + b := by
  have : m = 0 ∨ m = 1 ∨ m = 2 ∨ m = 3 ∨ m = 4 := by omega
  rcases this with h | h | h | h | h <;> subst h <;> simp [Data.push, Data.get]

theorem get_push_other (a : Data) (k m b : Nat) (hkm : m ≠ k) :
    (a.push k b).get m = a.get m := by
  have hk : k = 0 ∨ k = 1 ∨ k = 2 ∨ k = 3 ∨ k = 4 ∨ 5 ≤ k := by omega
  rcases hk with h | h | h | h | h | h
  · subst h; simp [Data.push, Data.get, hkm]
  · subst h; simp [Data.push, Data.get, hkm]
  · subst h; simp [Data.push, Data.get, hkm]
  · subst h; simp [Data.push, Data.get, hkm]
  · subst h; simp [Data.push, Data.get, hkm]
  · have h0 : k ≠ 0 := by omega
    have h1 : k ≠ 1 := by omega
    have h2 : k ≠ 2 := by omega
    have h3 : k ≠ 3 := by omega
    have h4 : k ≠ 4 := by omega
    simp [Data.push, h0, h1, h2, h3, h4]

theorem decoded_push (f : Nat → Nat) (fr : Frame) (n : Nat) (h : Decoded f fr n) :
    Decoded f ⟨fr.data.push (fr.j / 8) (f n), fr.j + 1⟩ (n + 1) := by
  obtain ⟨hj, hd⟩ := h
  refine ⟨by simp [hj], ?_⟩
  intro m hm
  have hdm := hd m hm
  by_cases hmk : m = n / 8
  · have e1 : min (n + 1) (8 * m + 8) - 8 * m = (min n (8 * m + 8) - 8 * m) + 1 := by omega
    have e2 : 8 * m + (min n (8 * m + 8) - 8 * m) = n := by omega
    rw [e1, bitsVal, e2, ← hdm, hj, ← hmk]
    exact get_push_same _ _ _ hm
  · have e1 : min (n + 1) (8 * m + 8) - 8 * m = min n (8 * m + 8) - 8 * m := by omega
    rw [e1, ← hdm, hj]
    exact get_push_other _ _ _ _ hmk

theorem forLoop_zero {σ : Type} (meas : σ → Except Err (Nat × σ)) (i : Nat) (s : σ)
    (fr : Frame) : forLoop meas 0 i s fr = .ok fr := rfl

theorem forLoop_trace_nil (n i : Nat) (fr : Frame) :
    forLoop traceMeasure (n + 1) i [] fr = .ok fr := by
  simp [forLoop, traceMeasure, bind, Except.bind, pure, Except.pure]

theorem forLoop_trace_sat (n i : Nat) (t : List Nat) (fr : Frame) :
    forLoop traceMeasure (n + 1) i (255 :: t) fr = .ok fr := by
  simp [forLoop, traceMeasure, bind, Except.bind, pure, Except.pure]

theorem forLoop_trace_cons (n i c : Nat) (t : List Nat) (fr : Frame) (hc : c ≠ 255) :
    forLoop traceMeasure (n + 1) i (c :: t) fr =
      (decodeStep i c fr).bind (fun fr1 => forLoop traceMeasure n ((i + 1) % 256) t fr1) := by
  simp [forLoop, traceMeasure, bind, Except.bind, pure, Except.pure, hc]

/-- The preamble: four recorded measurements leave the decoder state as it was. -/
theorem forLoop_preamble (p0 p1 p2 p3 : Nat) (rest : List Nat) (fr : Frame)
    (h0 : p0 ≠ 255) (h1 : p1 ≠ 255) (h2 : p2 ≠ 255) (h3 : p3 ≠ 255) :
    forLoop traceMeasure MAXTIMINGS 0 (p0 :: p1 :: p2 :: p3 :: rest) fr =
      forLoop traceMeasure 81 4 rest fr := by
  simp only [MAXTIMINGS]
  rw [forLoop_trace_cons _ _ _ _ _ h0, decodeStep_skip _ _ _ (by omega), Except.bind,
    forLoop_trace_cons _ _ _ _ _ h1, decodeStep_skip _ _ _ (by omega), Except.bind,
    forLoop_trace_cons _ _ _ _ _ h2, decodeStep_skip _ _ _ (by omega), Except.bind,
    forLoop_trace_cons _ _ _ _ _ h3, decodeStep_skip _ _ _ (by omega), Except.bind]

/-- The data transitions: from index `i ≥ 4` on, the loop over the rest of an
84-transition trace `T` shifts in the bits of the even-indexed durations. -/
theorem forLoop_data (T : List Nat) (hlen : T.length = 84) (hsat : ∀ c ∈ T, c < 255) :
    ∀ (n i : Nat) (fr : Frame), n + i = 85 → 4 ≤ i → i ≤ 84 →
      Decoded (fun k => bitOf (T.getD (4 + 2 * k) 0)) fr ((i - 3) / 2) →
      ∃ fr1, forLoop traceMeasure n i (T.drop i) fr = .ok fr1 ∧
        Decoded (fun k => bitOf (T.getD (4 + 2 * k) 0)) fr1 40 := by
  intro n
  induction n with
  | zero => intro i fr h1 _ h3; omega
  | succ n ih =>
    intro i fr hn h4 h84 hdec
    by_cases hi : i = 84
    · subst hi
      have : T.drop 84 = [] := by simp [List.drop_eq_nil_iff, hlen]
      rw [this, forLoop_trace_nil]
      exact ⟨fr, rfl, hdec⟩
    · have hlt : i < T.length := by omega
      rw [List.drop_eq_getElem_cons hlt]
      have hc : T[i] < 255 := hsat _ (List.getElem_mem hlt)
      rw [forLoop_trace_cons _ _ _ _ _ (by omega)]
      have hmod : (i + 1) % 256 = i + 1 := by omega
      rw [hmod]
      by_cases hev : i % 2 = 0
      · have hj : fr.j < 40 := by rw [hdec.1]; omega
        rw [decodeStep_push _ _ _ h4 hev hj, Except.bind]
        apply ih (i + 1) _ (by omega) (by omega) (by omega)
        have hb : bitOf T[i] = (fun k => bitOf (T.getD (4 + 2 * k) 0)) ((i - 3) / 2) := by
          have e : 4 + 2 * ((i - 3) / 2) = i := by omega
          simp only [e, List.getD_eq_getElem _ _ hlt]
        rw [hb]
        have e2 : (i + 1 - 3) / 2 = (i - 3) / 2 + 1 := by omega
        rw [e2]
        exact decoded_push _ _ _ hdec
      · rw [decodeStep_skip _ _ _ (by omega), Except.bind]
        apply ih (i + 1) _ (by omega) (by omega) (by omega)
        have e2 : (i + 1 - 3) / 2 = (i - 3) / 2 := by omega
        rw [e2]
        exact hdec

theorem and_255 (x : Nat) : x &&& 0xFF = x % 256 :=
  Nat.and_pow_two_sub_one_eq_mod x 8

theorem data_ext (a b : Data) (h : ∀ m, m < 5 → a.get m = b.get m) : a = b := by
  have h0 := h 0 (by omega)
  have h1 := h 1 (by omega)
  have h2 := h 2 (by omega)
  have h3 := h 3 (by omega)
  have h4 := h 4 (by omega)
  cases a; cases b
  simp [Data.get] at h0 h1 h2 h3 h4
  simp [h0, h1, h2, h3, h4]

/-- An 84-transition trace of recorded durations decodes, without fault, to
40 bits: cell `m` holds the bits `8m .. 8m+7` of the data transitions. -/
theorem decodeTrace_full (T : List Nat) (hlen : T.length = 84) (hsat : ∀ c ∈ T, c < 255) :
    decodeTrace T = .ok ⟨⟨bitsVal (traceBit T) 0 8, bitsVal (traceBit T) 8 8,
      bitsVal (traceBit T) 16 8, bitsVal (traceBit T) 24 8, bitsVal (traceBit T) 32 8⟩, 40⟩ := by
  match T, hlen, hsat with
  | p0 :: p1 :: p2 :: p3 :: rest, hlen, hsat =>
    have h0 : p0 ≠ 255 := by have := hsat p0 (by simp); omega
    have h1 : p1 ≠ 255 := by have := hsat p1 (by simp); omega
    have h2 : p2 ≠ 255 := by have := hsat p2 (by simp); omega
    have h3 : p3 ≠ 255 := by have := hsat p3 (by simp); omega
    rw [decodeTrace, forLoop_preamble _ _ _ _ _ _ h0 h1 h2 h3]
    have hinit : Decoded (fun k => bitOf ((p0 :: p1 :: p2 :: p3 :: rest).getD (4 + 2 * k) 0))
        ⟨⟨0, 0, 0, 0, 0⟩, 0⟩ ((4 - 3) / 2) := by
      refine ⟨rfl, ?_⟩
      intro m hm
      have e : min ((4 - 3) / 2) (8 * m + 8) - 8 * m = 0 := by omega
      rw [e, bitsVal]
      interval_cases m <;> rfl
    obtain ⟨fr1, hrun, hj, hd⟩ :=
      forLoop_data (p0 :: p1 :: p2 :: p3 :: rest) hlen hsat 81 4 _ (by omega) (by omega)
        (by omega) hinit
    have hdrop : (p0 :: p1 :: p2 :: p3 :: rest).drop 4 = rest := rfl
    rw [hdrop] at hrun
    rw [hrun]
    obtain ⟨dat, j⟩ := fr1
    simp only at hj hd
    subst hj
    congr 2
    apply data_ext
    intro m hm
    rw [hd m hm]
    interval_cases m <;> rfl

theorem readTrace_eq (t : List Nat) (init : Data) :
    readTrace t init = (decodeTrace t).map finish := by
  simp only [readTrace, clear_eq, decodeTrace, bind, Except.bind, Except.map]
  cases forLoop traceMeasure MAXTIMINGS 0 t { data := ⟨0, 0, 0, 0, 0⟩, j := 0 } <;> rfl

theorem bitOf_eq_one (c : Nat) : bitOf c = 1 ↔ 16 < c := by
  unfold bitOf; split_ifs <;> simp_all

theorem bitOf_le (c : Nat) : bitOf c ≤ 1 := by
  unfold bitOf; split_ifs <;> omega

theorem frameBit_le (a : Data) (k : Nat) : frameBit a k ≤ 1 := by
  unfold frameBit; omega

theorem traceBit_of_encodes (t : List Nat) (a : Data) (h : Encodes t a) (k : Nat)
    (hk : k < 40) : traceBit t k = frameBit a k := by
  have h1 := h.2.2 k hk
  have h2 := bitOf_eq_one (t.getD (4 + 2 * k) 0)
  have h3 := bitOf_le (t.getD (4 + 2 * k) 0)
  have h4 := frameBit_le a k
  unfold traceBit
  by_cases hc : 16 < t.getD (4 + 2 * k) 0
  · rw [h2.2 hc, h1.1 hc]
  · have : frameBit a k ≠ 1 := fun e => hc (h1.2 e)
    have : bitOf (t.getD (4 + 2 * k) 0) ≠ 1 := fun e => hc (h2.1 e)
    omega

theorem frameBit_at (a : Data) (m r : Nat) (hr : r < 8) :
    frameBit a (8 * m + r) = a.get m / 2 ^ (7 - r) % 2 := by
  have e1 : (8 * m + r) / 8 = m := by omega
  have e2 : (8 * m + r) % 8 = r := by omega
  rw [frameBit, e1, e2]

theorem bitsVal_byte (f : Nat → Nat) (a : Data) (m : Nat) (hm : m < 5)
    (ha : a.get m < 256) (hf : ∀ k, k < 40 → f k = frameBit a k) :
    bitsVal f (8 * m) 8 = a.get m := by
  simp only [bitsVal]
  rw [hf _ (by omega), hf _ (by omega), hf _ (by omega), hf _ (by omega), hf _ (by omega),
    hf _ (by omega), hf _ (by omega), hf _ (by omega)]
  rw [frameBit_at a m 0 (by omega), frameBit_at a m 1 (by omega), frameBit_at a m 2 (by omega),
    frameBit_at a m 3 (by omega), frameBit_at a m 4 (by omega), frameBit_at a m 5 (by omega),
    frameBit_at a m 6 (by omega), frameBit_at a m 7 (by omega)]
  norm_num
  omega

/-- A trace that encodes five bytes decodes to exactly these bytes. -/
theorem decodeTrace_of_encodes (t : List Nat) (a : Data) (h : Encodes t a)
    (ha : ∀ m, m < 5 → a.get m < 256) : decodeTrace t = .ok ⟨a, 40⟩ := by
  rw [decodeTrace_full t h.1 h.2.1]
  congr 2
  apply data_ext
  intro m hm
  have hb := bitsVal_byte (traceBit t) a m hm (ha m hm) (traceBit_of_encodes t a h)
  rw [← hb]
  interval_cases m <;> rfl

/-- C1. Checksum law (round trip): for all bytes `a, b, c, d` below 256 and
`cs = (a + b + c + d) mod 256`, every trace of 84 recorded transitions (all
durations below 255) whose data transitions 4, 6, ..., 82 encode the 40 bits
of `(a, b, c, d, cs)`, most significant bit first, above 16 ticks for a 1,
makes `read_DTH11_data` return 1 and leave `(a, b, c, d, cs)` in
`dht11_data`, whatever the array held before. -/
theorem checksum_law (a b c d : Nat) (ha : a < 256) (hb : b < 256) (hc : c < 256)
    (hd : d < 256) (t : List Nat) (init : Data)
    (h : Encodes t ⟨a, b, c, d, (a + b + c + d) % 256⟩) :
    readTrace t init = .ok (1, ⟨a, b, c, d, (a + b + c + d) % 256⟩) := by
  have hcells : ∀ m, m < 5 → (Data.mk a b c d ((a + b + c + d) % 256)).get m < 256 := by
    intro m hm
    interval_cases m <;> simp [Data.get] <;> omega
  rw [readTrace_eq, decodeTrace_of_encodes t _ h hcells]
  simp [Except.map, finish, and_255]

set_option maxRecDepth 100000 in
theorem checksum_law_witness :
    Encodes (encodeTrace ⟨0x32, 0x00, 0x18, 0x05, 0x4F⟩) ⟨0x32, 0x00, 0x18, 0x05, 0x4F⟩ ∧
    readTrace (encodeTrace ⟨0x32, 0x00, 0x18, 0x05, 0x4F⟩) ⟨7, 7, 7, 7, 7⟩ =
      .ok (1, ⟨50, 0, 24, 5, 79⟩) :=
  ⟨by decide,
   checksum_law 0x32 0x00 0x18 0x05 (by decide) (by decide) (by decide) (by decide) _ _
     (by decide)⟩

/-- No fault and the bit count: while the trace ends at index 84 at the latest,
every decoded bit lands inside the array and `j` counts the even indices
from 4 on. -/
theorem forLoop_count :
    ∀ (n i : Nat) (t : List Nat) (fr : Frame), n + i = 85 → fr.j = (i - 3) / 2 →
      i + t.length ≤ 84 →
      ∃ fr1, forLoop traceMeasure n i t fr = .ok fr1 ∧ fr1.j ≤ (i + t.length - 3) / 2 := by
  intro n
  induction n with
  | zero => intro i t fr _ hj _; exact ⟨fr, rfl, by omega⟩
  | succ n ih =>
    intro i t fr hn hj hlen
    match t with
    | [] => exact ⟨fr, forLoop_trace_nil _ _ _, by omega⟩
    | c :: rest =>
      simp only [List.length_cons] at hlen
      by_cases hc : c = 255
      · subst hc
        exact ⟨fr, forLoop_trace_sat _ _ _ _, by simp only [List.length_cons]; omega⟩
      · rw [forLoop_trace_cons _ _ _ _ _ hc]
        have hmod : (i + 1) % 256 = i + 1 := by omega
        rw [hmod]
        by_cases hev : i ≥ 4 ∧ i % 2 = 0
        · rw [decodeStep_push _ _ _ hev.1 hev.2 (by omega), Except.bind]
          obtain ⟨fr1, h1, h2⟩ := ih (i + 1) rest
            ⟨fr.data.push (fr.j / 8) (bitOf c), fr.j + 1⟩ (by omega) (by simp only; omega)
            (by omega)
          exact ⟨fr1, h1, by simp only [List.length_cons]; omega⟩
        · rw [decodeStep_skip _ _ _ hev, Except.bind]
          obtain ⟨fr1, h1, h2⟩ := ih (i + 1) rest fr (by omega) (by omega) (by omega)
          exact ⟨fr1, h1, by simp only [List.length_cons]; omega⟩

/-- C2. Completeness law: a trace of at most 82 recorded transitions (an
84-transition trace cut anywhere before its last data transition, index 82;
the empty trace included) decodes fewer than 40 bits, and `read_DTH11_data`
returns 0 whatever the partially filled bytes are. -/
theorem completeness_law (t : List Nat) (init : Data) (hlen : t.length ≤ 82) :
    ∃ fr, decodeTrace t = .ok fr ∧ fr.j < 40 ∧ readTrace t init = .ok (0, fr.data) := by
  obtain ⟨fr, h1, h2⟩ := forLoop_count 85 0 t ⟨⟨0, 0, 0, 0, 0⟩, 0⟩ (by omega) (by simp)
    (by omega)
  have hj : fr.j < 40 := by omega
  refine ⟨fr, h1, hj, ?_⟩
  rw [readTrace_eq]
  have h1b : decodeTrace t = .ok fr := h1
  rw [h1b]
  have : ¬ (fr.j ≥ 40) := by omega
  simp [Except.map, finish, this]

set_option maxRecDepth 100000 in
theorem completeness_law_witness :
    ((encodeTrace ⟨0x32, 0x00, 0x18, 0x05, 0x4F⟩).take 64).length ≤ 82 ∧
    (∃ fr, decodeTrace ((encodeTrace ⟨0x32, 0x00, 0x18, 0x05, 0x4F⟩).take 64) = .ok fr ∧
      fr.j < 40 ∧
      readTrace ((encodeTrace ⟨0x32, 0x00, 0x18, 0x05, 0x4F⟩).take 64) ⟨0, 0, 0, 0, 0⟩ =
        .ok (0, fr.data)) :=
  ⟨by decide, completeness_law _ _ (by decide)⟩

/-- The empty trace: all five bytes are zero, the checksum relation holds on
them, and the attempt fails all the same. -/
theorem readTrace_nil (init : Data) : readTrace [] init = .ok (0, ⟨0, 0, 0, 0, 0⟩) := by
  rw [readTrace_eq]; rfl

/-- C5. Preamble invariance: two traces with the same transitions from index
4 on, whose four preamble transitions are recorded measurements (below 255)
of any durations, give the same return value and the same five bytes; this
holds for any number of later transitions, 80 in particular. -/
theorem preamble_invariance (pre1 pre2 rest : List Nat) (init : Data)
    (h1 : pre1.length = 4) (h2 : pre2.length = 4)
    (hs1 : ∀ c ∈ pre1, c < 255) (hs2 : ∀ c ∈ pre2, c < 255) :
    readTrace (pre1 ++ rest) init = readTrace (pre2 ++ rest) init := by
  match pre1, h1, hs1, pre2, h2, hs2 with
  | [p0, p1, p2, p3], _, hs1, [q0, q1, q2, q3], _, hs2 =>
    have hp0 := hs1 p0 (by simp)
    have hp1 := hs1 p1 (by simp)
    have hp2 := hs1 p2 (by simp)
    have hp3 := hs1 p3 (by simp)
    have hq0 := hs2 q0 (by simp)
    have hq1 := hs2 q1 (by simp)
    have hq2 := hs2 q2 (by simp)
    have hq3 := hs2 q3 (by simp)
    rw [readTrace_eq, readTrace_eq, decodeTrace, decodeTrace]
    simp only [List.cons_append, List.nil_append]
    rw [forLoop_preamble _ _ _ _ _ _ (by omega) (by omega) (by omega) (by omega),
      forLoop_preamble _ _ _ _ _ _ (by omega) (by omega) (by omega) (by omega)]

theorem preamble_invariance_witness :
    readTrace ([3, 20, 20, 12] ++ List.replicate 80 9) ⟨0, 0, 0, 0, 0⟩ =
      readTrace ([200, 1, 254, 0] ++ List.replicate 80 9) ⟨0, 0, 0, 0, 0⟩ :=
  preamble_invariance [3, 20, 20, 12] [200, 1, 254, 0] (List.replicate 80 9) _ (by decide)
    (by decide) (by decide) (by decide)

theorem bitsVal_congr (f g : Nat → Nat) (s : Nat) :
    ∀ len, (∀ r, r < len → f (s + r) = g (s + r)) → bitsVal f s len = bitsVal g s len := by
  intro len
  induction len with
  | zero => intro _; rfl
  | succ len ih =>
    intro h
    rw [bitsVal, bitsVal, ih (fun r hr => h r (by omega)), h len (by omega)]

theorem getD_set (t : List Nat) (i j v : Nat) (hi : i < t.length) :
    (t.set i v).getD j 0 = if i = j then v else t.getD j 0 := by
  simp only [List.getD_eq_getElem?_getD, List.getElem?_set]
  by_cases h : i = j
  · subst h; simp [hi]
  · simp [h]

theorem traceBit_set_other (t : List Nat) (q v k : Nat) (hlen : t.length = 84) (hq : q < 8)
    (hk : k ≠ 32 + q) : traceBit (t.set (68 + 2 * q) v) k = traceBit t k := by
  unfold traceBit
  rw [getD_set _ _ _ _ (by omega), if_neg (by omega)]

theorem traceBit_set_flip (t : List Nat) (q v : Nat) (hlen : t.length = 84) (hq : q < 8)
    (hflip : 16 < v ↔ ¬ 16 < t.getD (68 + 2 * q) 0) :
    traceBit (t.set (68 + 2 * q) v) (32 + q) + traceBit t (32 + q) = 1 := by
  unfold traceBit
  have e : 4 + 2 * (32 + q) = 68 + 2 * q := by omega
  rw [getD_set _ _ _ _ (by omega), e, if_pos rfl]
  unfold bitOf
  by_cases h : 16 < v
  · have := hflip.1 h
    split_ifs <;> omega
  · have : 16 < t.getD (68 + 2 * q) 0 := by
      by_contra h2
      exact h (hflip.2 h2)
    split_ifs <;> omega

theorem bitsVal_flip_ne (f g : Nat → Nat) (s q : Nat) (hq : q < 8)
    (hsame : ∀ r, r < 8 → r ≠ q → f (s + r) = g (s + r))
    (hflip : f (s + q) + g (s + q) = 1) : bitsVal f s 8 ≠ bitsVal g s 8 := by
  have e0 : 0 = q ∨ f (s + 0) = g (s + 0) := by
    by_cases h : 0 = q
    · exact Or.inl h
    · exact Or.inr (hsame 0 (by omega) h)
  have e1 : 1 = q ∨ f (s + 1) = g (s + 1) := by
    by_cases h : 1 = q
    · exact Or.inl h
    · exact Or.inr (hsame 1 (by omega) h)
  have e2 : 2 = q ∨ f (s + 2) = g (s + 2) := by
    by_cases h : 2 = q
    · exact Or.inl h
    · exact Or.inr (hsame 2 (by omega) h)
  have e3 : 3 = q ∨ f (s + 3) = g (s + 3) := by
    by_cases h : 3 = q
    · exact Or.inl h
    · exact Or.inr (hsame 3 (by omega) h)
  have e4 : 4 = q ∨ f (s + 4) = g (s + 4) := by
    by_cases h : 4 = q
    · exact Or.inl h
    · exact Or.inr (hsame 4 (by omega) h)
  have e5 : 5 = q ∨ f (s + 5) = g (s + 5) := by
    by_cases h : 5 = q
    · exact Or.inl h
    · exact Or.inr (hsame 5 (by omega) h)
  have e6 : 6 = q ∨ f (s + 6) = g (s + 6) := by
    by_cases h : 6 = q
    · exact Or.inl h
    · exact Or.inr (hsame 6 (by omega) h)
  have e7 : 7 = q ∨ f (s + 7) = g (s + 7) := by
    by_cases h : 7 = q
    · exact Or.inl h
    · exact Or.inr (hsame 7 (by omega) h)
  have hcase : q = 0 ∨ q = 1 ∨ q = 2 ∨ q = 3 ∨ q = 4 ∨ q = 5 ∨ q = 6 ∨ q = 7 := by omega
  simp only [bitsVal]
  rcases hcase with h | h | h | h | h | h | h | h <;> subst h <;> omega

/-- C3. Checksum rejection: in a trace that encodes bytes `a, b, c, d` and
their checksum, changing the duration of the data transition of any one of
the 8 checksum bits (index `68 + 2q`) across the 16-tick threshold makes
`read_DTH11_data` return 0; the four data bytes are decoded as before and the
checksum byte is a different one. -/
theorem checksum_rejection (a b c d : Nat) (ha : a < 256) (hb : b < 256) (hc : c < 256)
    (hd : d < 256) (t : List Nat) (init : Data)
    (h : Encodes t ⟨a, b, c, d, (a + b + c + d) % 256⟩)
    (q v : Nat) (hq : q < 8) (hv : v < 255)
    (hflip : 16 < v ↔ ¬ 16 < t.getD (68 + 2 * q) 0) :
    ∃ e, e ≠ (a + b + c + d) % 256 ∧
      readTrace (t.set (68 + 2 * q) v) init = .ok (0, ⟨a, b, c, d, e⟩) := by
  have hcells : ∀ m, m < 5 → (Data.mk a b c d ((a + b + c + d) % 256)).get m < 256 := by
    intro m hm
    interval_cases m <;> simp [Data.get] <;> omega
  have hlen := h.1
  have hlen1 : (t.set (68 + 2 * q) v).length = 84 := by rw [List.length_set]; exact hlen
  have hsat1 : ∀ x ∈ t.set (68 + 2 * q) v, x < 255 := by
    intro x hx
    rcases List.mem_or_eq_of_mem_set hx with h1 | h1
    · exact h.2.1 x h1
    · omega
  have hbyte : ∀ m, m < 5 → bitsVal (traceBit t) (8 * m) 8 =
      (Data.mk a b c d ((a + b + c + d) % 256)).get m :=
    fun m hm => bitsVal_byte (traceBit t) _ m hm (hcells m hm) (traceBit_of_encodes t _ h)
  have hsame : ∀ m, m < 4 → bitsVal (traceBit (t.set (68 + 2 * q) v)) (8 * m) 8 =
      bitsVal (traceBit t) (8 * m) 8 := by
    intro m hm
    apply bitsVal_congr
    intro r hr
    exact traceBit_set_other t q v _ hlen hq (by omega)
  have h0 := (hsame 0 (by omega)).trans (hbyte 0 (by omega))
  have h1 := (hsame 1 (by omega)).trans (hbyte 1 (by omega))
  have h2 := (hsame 2 (by omega)).trans (hbyte 2 (by omega))
  have h3 := (hsame 3 (by omega)).trans (hbyte 3 (by omega))
  have h4 := hbyte 4 (by omega)
  simp only [Data.get, Nat.reduceMul] at h0 h1 h2 h3 h4
  norm_num at h0 h1 h2 h3 h4
  have hne : bitsVal (traceBit (t.set (68 + 2 * q) v)) 32 8 ≠ (a + b + c + d) % 256 := by
    rw [← h4]
    exact bitsVal_flip_ne _ _ 32 q hq
      (fun r _ hrq => traceBit_set_other t q v _ hlen hq (by omega))
      (traceBit_set_flip t q v hlen hq hflip)
  refine ⟨_, hne, ?_⟩
  rw [readTrace_eq, decodeTrace_full _ hlen1 hsat1, h0, h1, h2, h3]
  simp [Except.map, finish, and_255, hne]

set_option maxRecDepth 100000 in
theorem checksum_rejection_witness :
    Encodes (encodeTrace ⟨0x32, 0x00, 0x18, 0x05, 0x4F⟩) ⟨0x32, 0x00, 0x18, 0x05, 0x4F⟩ ∧
    ∃ e, e ≠ 0x4F ∧
      readTrace ((encodeTrace ⟨0x32, 0x00, 0x18, 0x05, 0x4F⟩).set (68 + 2 * 7) 9)
        ⟨0, 0, 0, 0, 0⟩ = .ok (0, ⟨0x32, 0x00, 0x18, 0x05, e⟩) :=
  ⟨by decide,
   checksum_rejection 0x32 0x00 0x18 0x05 (by decide) (by decide) (by decide) (by decide)
     (encodeTrace ⟨0x32, 0x00, 0x18, 0x05, 0x4F⟩) ⟨0, 0, 0, 0, 0⟩ (by decide) 7 9 (by decide)
     (by decide) (by decide)⟩

set_option maxRecDepth 100000 in
/-- The scenario of the specification: bytes `(0x32, 0x00, 0x18, 0x05)` sent
with checksum byte `0x50` instead of `0x4F` are rejected. -/
theorem checksum_scenario_rejected (init : Data) :
    readTrace (encodeTrace ⟨0x32, 0x00, 0x18, 0x05, 0x50⟩) init =
      .ok (0, ⟨0x32, 0x00, 0x18, 0x05, 0x50⟩) := by
  rw [readTrace_eq]; rfl

/-- C4. Threshold boundary: at every data transition (even index `i ≥ 4`,
with the bit counter inside the frame) the decoding step shifts one bit into
cell `j / 8` and leaves the other cells alone; the bit is 1 exactly when the
duration is above 16 ticks and 0 exactly when it is at most 16. -/
theorem threshold_boundary (i counter : Nat) (fr : Frame) (h4 : 4 ≤ i) (hev : i % 2 = 0)
    (hj : fr.j < 40) :
    ∃ fr1, decodeStep i counter fr = .ok fr1 ∧ fr1.j = fr.j + 1 ∧
      (∃ bit, (bit = 1 ↔ 16 < counter) ∧ (bit = 0 ↔ counter ≤ 16) ∧
        fr1.data.get (fr.j / 8) = 2 * fr.data.get (fr.j / 8) + bit) ∧
      ∀ m, m ≠ fr.j / 8 → fr1.data.get m = fr.data.get m := by
  refine ⟨_, decodeStep_push i counter fr h4 hev hj, rfl, ⟨bitOf counter, ?_, ?_, ?_⟩, ?_⟩
  · exact bitOf_eq_one counter
  · unfold bitOf
    by_cases h : counter > 16
    · simp [h]
    · simp [h]; omega
  · exact get_push_same _ _ _ (by omega)
  · intro m hm
    exact get_push_other _ _ _ _ hm

theorem threshold_boundary_witness :
    (∃ fr1, decodeStep 4 16 ⟨⟨0, 0, 0, 0, 0⟩, 0⟩ = .ok fr1 ∧ fr1.j = 0 + 1 ∧
      (∃ bit, (bit = 1 ↔ 16 < 16) ∧ (bit = 0 ↔ 16 ≤ 16) ∧
        fr1.data.get (0 / 8) = 2 * (Data.mk 0 0 0 0 0).get (0 / 8) + bit) ∧
      ∀ m, m ≠ 0 / 8 → fr1.data.get m = (Data.mk 0 0 0 0 0).get m) ∧
    decodeStep 4 16 ⟨⟨0, 0, 0, 0, 0⟩, 0⟩ = .ok ⟨⟨0, 0, 0, 0, 0⟩, 1⟩ ∧
    decodeStep 4 17 ⟨⟨0, 0, 0, 0, 0⟩, 0⟩ = .ok ⟨⟨1, 0, 0, 0, 0⟩, 1⟩ :=
  ⟨threshold_boundary 4 16 ⟨⟨0, 0, 0, 0, 0⟩, 0⟩ (by decide) (by decide) (by decide),
   by rfl, by rfl⟩

theorem bitsVal_bit (f : Nat → Nat) (s r : Nat) (hr : r < 8) (hf : ∀ k, f k ≤ 1) :
    bitsVal f s 8 / 2 ^ (7 - r) % 2 = f (s + r) := by
  have h0 := hf s
  have h1 := hf (s + 1)
  have h2 := hf (s + 2)
  have h3 := hf (s + 3)
  have h4 := hf (s + 4)
  have h5 := hf (s + 5)
  have h6 := hf (s + 6)
  have h7 := hf (s + 7)
  simp only [bitsVal]
  have hcase : r = 0 ∨ r = 1 ∨ r = 2 ∨ r = 3 ∨ r = 4 ∨ r = 5 ∨ r = 6 ∨ r = 7 := by omega
  rcases hcase with h | h | h | h | h | h | h | h <;> subst h <;> norm_num <;> omega

/-- On a whole trace of 84 recorded transitions: bit `k` of the decoded frame
is 1 exactly when the duration of data transition `4 + 2k` is above 16. -/
theorem decoded_bits_threshold (T : List Nat) (hlen : T.length = 84)
    (hsat : ∀ c ∈ T, c < 255) :
    ∃ fr, decodeTrace T = .ok fr ∧
      ∀ k, k < 40 → (frameBit fr.data k = 1 ↔ 16 < T.getD (4 + 2 * k) 0) := by
  refine ⟨_, decodeTrace_full T hlen hsat, ?_⟩
  intro k hk
  have hm : k / 8 < 5 := by omega
  have hcell : (Data.mk (bitsVal (traceBit T) 0 8) (bitsVal (traceBit T) 8 8)
      (bitsVal (traceBit T) 16 8) (bitsVal (traceBit T) 24 8)
      (bitsVal (traceBit T) 32 8)).get (k / 8) = bitsVal (traceBit T) (8 * (k / 8)) 8 := by
    generalize k / 8 = m at hm
    interval_cases m <;> rfl
  have hbit := bitsVal_bit (traceBit T) (8 * (k / 8)) (k % 8) (by omega)
    (fun k => bitOf_le _)
  have e : 8 * (k / 8) + k % 8 = k := by omega
  rw [e] at hbit
  simp only [frameBit]
  rw [hcell, hbit]
  exact bitOf_eq_one _

set_option maxRecDepth 100000 in
/-- C6. Frame bound, where the code departs from it: a trace of 85 recorded
transitions makes the loop decode a 41st bit at index 84, and the store
`dht11_data[j / 8]` with `j = 40` addresses cell 5 of the five-cell array. -/
theorem frame_bound_overrun (init : Data) :
    readTrace (encodeTrace ⟨0x32, 0x00, 0x18, 0x05, 0x4F⟩ ++ [9]) init =
      .error (.outOfBounds 5) := by
  rw [readTrace_eq]; rfl

/-- Up to 84 recorded transitions the frame bound holds: no access outside
the array and at most 40 decoded bits. -/
theorem frame_bound_upto_84 (t : List Nat) (hlen : t.length ≤ 84) :
    ∃ fr, decodeTrace t = .ok fr ∧ fr.j ≤ 40 := by
  obtain ⟨fr, h1, h2⟩ := forLoop_count 85 0 t ⟨⟨0, 0, 0, 0, 0⟩, 0⟩ (by omega) (by simp)
    (by omega)
  exact ⟨fr, h1, by omega⟩

set_option maxRecDepth 1000000 in
/-- The same overrun on a line: a line that changes level every 20 reads lets
all 85 measurements be recorded. -/
theorem frame_bound_overrun_line (init : Data) :
    read_DTH11_data 255 (fun n => decide (n % 40 < 20)) init = .error (.outOfBounds 5) := by
  simp only [read_DTH11_data, clear_eq, bind, Except.bind]
  rfl

/-- The `while` loop with enough fuel: it ends, the counter stays below 256
without wrapping, and it is the number of polls that found the line at
`laststate`. -/
theorem measure_spec (line : Nat → Bool) (laststate : Bool) :
    ∀ (fuel pos counter : Nat), counter < 255 → 255 - counter ≤ fuel →
      ∃ c p, measure line laststate fuel pos counter = .ok (c, p) ∧
        counter ≤ c ∧ c ≤ 255 ∧
        (∀ k, k < c - counter → line (pos + k) = laststate) ∧
        (c < 255 → p = pos + (c - counter) + 1 ∧ line (pos + (c - counter)) ≠ laststate) ∧
        (c = 255 → p = pos + (255 - counter)) := by
  intro fuel
  induction fuel with
  | zero => intro pos counter h1 h2; omega
  | succ fuel ih =>
    intro pos counter h1 h2
    rw [measure]
    by_cases hl : line pos = laststate
    · rw [if_pos hl]
      have hmod : (counter + 1) % 256 = counter + 1 := by omega
      simp only [hmod]
      by_cases hs : counter + 1 = 255
      · rw [if_pos hs]
        refine ⟨counter + 1, pos + 1, rfl, by omega, by omega, ?_, by omega, by omega⟩
        intro k hk
        have : k = 0 := by omega
        subst this
        exact hl
      · rw [if_neg hs]
        obtain ⟨c, p, hrun, hc1, hc2, hpolls, hlow, hsat⟩ :=
          ih (pos + 1) (counter + 1) (by omega) (by omega)
        refine ⟨c, p, hrun, by omega, hc2, ?_, ?_, ?_⟩
        · intro k hk
          by_cases hk0 : k = 0
          · subst hk0; exact hl
          · have := hpolls (k - 1) (by omega)
            have e : pos + 1 + (k - 1) = pos + k := by omega
            rw [e] at this
            exact this
        · intro hlt
          obtain ⟨hp, hne⟩ := hlow hlt
          have e : pos + 1 + (c - (counter + 1)) = pos + (c - counter) := by omega
          rw [e] at hne
          exact ⟨by omega, hne⟩
        · intro h255
          have := hsat h255
          omega
    · rw [if_neg hl]
      refine ⟨counter, pos + 1, rfl, le_refl _, by omega, ?_, ?_, by omega⟩
      · intro k hk; omega
      · intro _
        exact ⟨by omega, by simpa using hl⟩

/-- One measurement on the line with enough fuel returns a counter of at most 255. -/
theorem lineMeasure_ok (fuel : Nat) (hfuel : 255 ≤ fuel) (line : Nat → Bool)
    (s : Bool × Nat) : ∃ c s1, lineMeasure fuel line s = .ok (c, s1) ∧ c ≤ 255 := by
  obtain ⟨laststate, pos⟩ := s
  obtain ⟨c, p, hrun, _, hc, _⟩ := measure_spec line laststate fuel pos 0 (by omega) (by omega)
  exact ⟨c, (line p, p + 1), by simp [lineMeasure, hrun, bind, Except.bind, pure, Except.pure],
    hc⟩

/-- The log of a sampling loop whose measurements all return: at most `n`
entries, none above 255, a 255 only as the last entry, and a log shorter
than `n` ends with 255. -/
theorem sampleLog_spec {σ : Type} (meas : σ → Except Err (Nat × σ))
    (hmeas : ∀ s, ∃ c s1, meas s = .ok (c, s1) ∧ c ≤ 255) :
    ∀ (n : Nat) (s : σ), ∃ log, sampleLog meas n s = .ok log ∧ log.length ≤ n ∧
      (∀ c ∈ log, c ≤ 255) ∧ (∀ c ∈ log.dropLast, c < 255) ∧
      (log.length = n ∨ log.getLast? = some 255) := by
  intro n
  induction n with
  | zero => intro s; exact ⟨[], rfl, by simp, by simp, by simp, by simp⟩
  | succ n ih =>
    intro s
    obtain ⟨c, s1, hm, hc⟩ := hmeas s
    by_cases h255 : c = 255
    · subst h255
      refine ⟨[255], ?_, by simp, by simp, by simp, by simp⟩
      simp [sampleLog, hm, bind, Except.bind, pure, Except.pure]
    · obtain ⟨rest, hrun, hlen, hall, hdrop, hlast⟩ := ih s1
      refine ⟨c :: rest, ?_, by simp; omega, ?_, ?_, ?_⟩
      · simp [sampleLog, hm, hrun, bind, Except.bind, pure, Except.pure, h255]
      · intro x hx
        rcases List.mem_cons.1 hx with h | h
        · omega
        · exact hall x h
      · intro x hx
        match rest, hdrop, hall with
        | [], _, _ => simp at hx
        | r :: rs, hdrop, _ =>
          rw [List.dropLast_cons₂] at hx
          rcases List.mem_cons.1 hx with h | h
          · omega
          · exact hdrop x h
      · rcases hlast with h | h
        · left; simp [h]
        · right
          match rest, h with
          | r :: rs, h => simpa [List.getLast?_cons_cons] using h

theorem recorded_lt (log : List Nat) (hall : ∀ c ∈ log, c ≤ 255) :
    ∀ c ∈ recorded log, c < 255 := by
  intro c hc
  simp only [recorded, List.mem_filter, decide_eq_true_eq] at hc
  have := hall c hc.1
  omega

/-- The loop on a source of measurements does what the loop on the recorded
trace of its log does. -/
theorem forLoop_eq_trace {σ : Type} (meas : σ → Except Err (Nat × σ)) :
    ∀ (n i : Nat) (s : σ) (fr : Frame) (log : List Nat), sampleLog meas n s = .ok log →
      forLoop meas n i s fr = forLoop traceMeasure n i (recorded log) fr := by
  intro n
  induction n with
  | zero => intro i s fr log _; rfl
  | succ n ih =>
    intro i s fr log hlog
    rw [sampleLog] at hlog
    rw [forLoop]
    match hm : meas s, hlog with
    | .error e, hlog => simp [hm, bind, Except.bind] at hlog
    | .ok (c, s1), hlog =>
      simp only [hm, bind, Except.bind] at hlog ⊢
      by_cases h255 : c = 255
      · simp only [h255, if_true, pure, Except.pure, Except.ok.injEq] at hlog ⊢
        subst hlog
        simp [recorded, forLoop_trace_nil]
      · simp only [h255, if_false] at hlog ⊢
        match hr : sampleLog meas n s1, hlog with
        | .error e, hlog => simp [hr] at hlog
        | .ok rest, hlog =>
          simp only [hr, pure, Except.pure, Except.ok.injEq] at hlog
          subst hlog
          have hrec : recorded (c :: rest) = c :: recorded rest := by
            simp [recorded, h255]
          rw [hrec, forLoop_trace_cons _ _ _ _ _ h255]
          cases hd : decodeStep i c fr with
          | error e => rfl
          | ok fr1 => exact ih _ s1 fr1 rest hr

theorem read_eq_readTrace (fuel : Nat) (line : Nat → Bool) (init : Data) (log : List Nat)
    (hlog : sampleLog (lineMeasure fuel line) MAXTIMINGS (HIGH, 0) = .ok log) :
    read_DTH11_data fuel line init = readTrace (recorded log) init := by
  simp only [read_DTH11_data, readTrace, clear_eq, bind, Except.bind]
  rw [forLoop_eq_trace _ _ _ _ _ _ hlog]

theorem decodeStep_fault (i c : Nat) (fr : Frame) (h4 : 4 ≤ i) (hev : i % 2 = 0)
    (hj : 40 ≤ fr.j) : decodeStep i c fr = .error (.outOfBounds (fr.j / 8)) := by
  have hc : (i ≥ 4 ∧ i % 2 = 0) := ⟨h4, hev⟩
  have h0 : fr.j / 8 ≠ 0 := by omega
  have h1 : fr.j / 8 ≠ 1 := by omega
  have h2 : fr.j / 8 ≠ 2 := by omega
  have h3 : fr.j / 8 ≠ 3 := by omega
  have h5 : fr.j / 8 ≠ 4 := by omega
  simp [decodeStep, hc, Data.load, h0, h1, h2, h3, h5, bind, Except.bind]

/-- The loop on a trace never runs out of fuel: it has no `while` loop left. -/
theorem forLoop_trace_fuel :
    ∀ (n i : Nat) (t : List Nat) (fr : Frame),
      forLoop traceMeasure n i t fr ≠ .error .outOfFuel := by
  intro n
  induction n with
  | zero => intro i t fr h; simp [forLoop_zero] at h
  | succ n ih =>
    intro i t fr
    match t with
    | [] => rw [forLoop_trace_nil]; simp
    | c :: rest =>
      by_cases hc : c = 255
      · subst hc; rw [forLoop_trace_sat]; simp
      · rw [forLoop_trace_cons _ _ _ _ _ hc]
        by_cases hev : i ≥ 4 ∧ i % 2 = 0
        · by_cases hj : fr.j < 40
          · rw [decodeStep_push _ _ _ hev.1 hev.2 hj, Except.bind]
            exact ih _ _ _
          · rw [decodeStep_fault _ _ _ hev.1 hev.2 (by omega), Except.bind]
            simp
        · rw [decodeStep_skip _ _ _ hev, Except.bind]
          exact ih _ _ _

theorem readTrace_fuel (t : List Nat) (init : Data) :
    readTrace t init ≠ .error .outOfFuel := by
  rw [readTrace_eq, decodeTrace]
  have h := forLoop_trace_fuel MAXTIMINGS 0 t ⟨⟨0, 0, 0, 0, 0⟩, 0⟩
  cases hr : forLoop traceMeasure MAXTIMINGS 0 t ⟨⟨0, 0, 0, 0, 0⟩, 0⟩ with
  | error e =>
    rw [hr] at h
    simpa [Except.map] using h
  | ok fr => simp [Except.map]

theorem recorded_of_last : ∀ (log : List Nat), (∀ c ∈ log.dropLast, c < 255) →
    (log.getLast? = some 255 → recorded log = log.dropLast) ∧
    (log.getLast? ≠ some 255 → recorded log = log)
  | [], _ => by simp [recorded]
  | [c], _ => by
    by_cases h : c = 255
    · simp [recorded, h]
    · simp [recorded, h]
  | c :: d :: rest, hdrop => by
    have hc : c < 255 := hdrop c (by simp [List.dropLast_cons₂])
    have hrest : ∀ x ∈ (d :: rest).dropLast, x < 255 := by
      intro x hx
      exact hdrop x (by rw [List.dropLast_cons₂]; exact List.mem_cons_of_mem _ hx)
    obtain ⟨h1, h2⟩ := recorded_of_last (d :: rest) hrest
    have hne : c ≠ 255 := by omega
    have hrec : recorded (c :: d :: rest) = c :: recorded (d :: rest) := by
      simp [recorded, hne]
    rw [List.getLast?_cons_cons, hrec, List.dropLast_cons₂]
    exact ⟨fun h => by rw [h1 h], fun h => by rw [h2 h]⟩

/-- The log of a sampling loop is a run of its source of measurements: entry
`k` is what the measurement made in the state after `k` measurements
returned. -/
theorem sampleLog_chain {σ : Type} (meas : σ → Except Err (Nat × σ)) :
    ∀ (n : Nat) (s : σ) (log : List Nat), sampleLog meas n s = .ok log →
      ∃ states : List σ, states.length = log.length + 1 ∧ states[0]? = some s ∧
        ∀ k, k < log.length → ∃ a b c, states[k]? = some a ∧ states[k + 1]? = some b ∧
          log[k]? = some c ∧ meas a = .ok (c, b) := by
  intro n
  induction n with
  | zero =>
    intro s log hlog
    simp only [sampleLog, Except.ok.injEq] at hlog
    subst hlog
    exact ⟨[s], rfl, rfl, by intro k hk; simp at hk⟩
  | succ n ih =>
    intro s log hlog
    rw [sampleLog] at hlog
    match hm : meas s, hlog with
    | .error e, hlog => simp [hm, bind, Except.bind] at hlog
    | .ok (c, s1), hlog =>
      simp only [hm, bind, Except.bind] at hlog
      by_cases h255 : c = 255
      · simp only [h255, if_true, pure, Except.pure, Except.ok.injEq] at hlog
        subst hlog
        refine ⟨[s, s1], rfl, rfl, ?_⟩
        intro k hk
        have hk0 : k = 0 := by simpa using hk
        subst hk0
        exact ⟨s, s1, 255, rfl, rfl, rfl, by rw [hm, h255]⟩
      · simp only [h255, if_false] at hlog
        match hr : sampleLog meas n s1, hlog with
        | .error e, hlog => simp [hr] at hlog
        | .ok rest, hlog =>
          simp only [hr, pure, Except.pure, Except.ok.injEq] at hlog
          subst hlog
          obtain ⟨states, hlen, hhead, hchain⟩ := ih s1 rest hr
          refine ⟨s :: states, by simp [hlen], by simp, ?_⟩
          intro k hk
          match k, hk with
          | 0, _ => exact ⟨s, s1, c, by simp, by simpa using hhead, by simp, hm⟩
          | k + 1, hk =>
            obtain ⟨a, b, x, ha, hb, hx, hmeas⟩ := hchain k (by simpa using hk)
            exact ⟨a, b, x, by simpa using ha, by simpa using hb, by simpa using hx, hmeas⟩

/-- The loop on a source of measurements decodes the recorded entries of its
log, each at its own index, and nothing else. -/
theorem forLoop_eq_decodeAll {σ : Type} (meas : σ → Except Err (Nat × σ)) :
    ∀ (n i : Nat) (s : σ) (fr : Frame) (log : List Nat), i + n ≤ 255 →
      sampleLog meas n s = .ok log →
      forLoop meas n i s fr = decodeAll i (recorded log) fr := by
  intro n
  induction n with
  | zero =>
    intro i s fr log _ hlog
    simp only [sampleLog, Except.ok.injEq] at hlog
    subst hlog
    rfl
  | succ n ih =>
    intro i s fr log hin hlog
    rw [sampleLog] at hlog
    rw [forLoop]
    match hm : meas s, hlog with
    | .error e, hlog => simp [hm, bind, Except.bind] at hlog
    | .ok (c, s1), hlog =>
      simp only [hm, bind, Except.bind] at hlog ⊢
      by_cases h255 : c = 255
      · simp only [h255, if_true, pure, Except.pure, Except.ok.injEq] at hlog ⊢
        subst hlog
        simp [recorded, decodeAll]
      · simp only [h255, if_false] at hlog ⊢
        match hr : sampleLog meas n s1, hlog with
        | .error e, hlog => simp [hr] at hlog
        | .ok rest, hlog =>
          simp only [hr, pure, Except.pure, Except.ok.injEq] at hlog
          subst hlog
          have hrec : recorded (c :: rest) = c :: recorded rest := by
            simp [recorded, h255]
          have hmod : (i + 1) % 256 = i + 1 := by omega
          rw [hrec, decodeAll, hmod]
          cases hd : decodeStep i c fr with
          | error e => rfl
          | ok fr1 => exact ih (i + 1) s1 fr1 rest (by omega) hr

/-- The call on a line is the checksum test on what the decoding steps of the
recorded entries of its log leave. -/
theorem read_eq_decodeAll (fuel : Nat) (line : Nat → Bool) (init : Data) (log : List Nat)
    (hlog : sampleLog (lineMeasure fuel line) MAXTIMINGS (HIGH, 0) = .ok log) :
    read_DTH11_data fuel line init =
      (decodeAll 0 (recorded log) ⟨⟨0, 0, 0, 0, 0⟩, 0⟩).map finish := by
  simp only [read_DTH11_data, clear_eq, bind, Except.bind]
  rw [forLoop_eq_decodeAll _ _ _ _ _ _ (by decide) hlog]
  cases decodeAll 0 (recorded log) ⟨⟨0, 0, 0, 0, 0⟩, 0⟩ <;> rfl

/-- C7. Bounded sampling with saturation: with fuel for 255 polls, on every
line,
(1) each `while` loop ends after at most 255 polls with a counter of at most
255 that did not wrap: it is the number of polls that found the line at
`laststate`, and a counter below 255 means the next poll found the line
changed (the read `laststate = digitalRead(DHTPIN)` that follows the loop is
one more call, `p + 1`);
(2) the measurements of the `for` loop form a run `log` on the line: it
starts in the state `(HIGH, 0)`, entry `k` is the counter of the measurement
made in the state the measurement before it left, there are at most 85
entries, a 255 is the last entry, and the run is shorter than 85 only when
it ends with 255;
(3) the `for` loop itself decodes the entries of that run in order, each at
its own index, except the saturated one: what it leaves is what the decoding
steps of the run without its final 255 leave, for every starting state of the
decoder, and the call returns the checksum test on that; it does not run out
of fuel. -/
theorem bounded_sampling (fuel : Nat) (hfuel : 255 ≤ fuel) (line : Nat → Bool)
    (init : Data) :
    (∀ laststate pos, ∃ c p, measure line laststate fuel pos 0 = .ok (c, p) ∧
      lineMeasure fuel line (laststate, pos) = .ok (c, (line p, p + 1)) ∧
      c ≤ 255 ∧ p ≤ pos + 255 ∧ (∀ k, k < c → line (pos + k) = laststate) ∧
      (c < 255 → p = pos + c + 1 ∧ line (pos + c) ≠ laststate) ∧
      (c = 255 → p = pos + 255)) ∧
    ∃ (log : List Nat) (states : List (Bool × Nat)),
      sampleLog (lineMeasure fuel line) MAXTIMINGS (HIGH, 0) = .ok log ∧
      states.length = log.length + 1 ∧ states[0]? = some (HIGH, 0) ∧
      (∀ k, k < log.length → ∃ a b c, states[k]? = some a ∧ states[k + 1]? = some b ∧
        log[k]? = some c ∧ lineMeasure fuel line a = .ok (c, b)) ∧
      log.length ≤ 85 ∧ (∀ c ∈ log, c ≤ 255) ∧ (∀ c ∈ log.dropLast, c < 255) ∧
      (log.length = 85 ∨ log.getLast? = some 255) ∧
      (log.getLast? = some 255 → recorded log = log.dropLast) ∧
      (log.getLast? ≠ some 255 → recorded log = log) ∧
      (∀ fr, forLoop (lineMeasure fuel line) MAXTIMINGS 0 (HIGH, 0) fr =
        decodeAll 0 (recorded log) fr) ∧
      read_DTH11_data fuel line init =
        (decodeAll 0 (recorded log) ⟨⟨0, 0, 0, 0, 0⟩, 0⟩).map finish ∧
      (∀ c ∈ recorded log, c < 255) ∧
      read_DTH11_data fuel line init = readTrace (recorded log) init ∧
      read_DTH11_data fuel line init ≠ .error .outOfFuel := by
  constructor
  · intro laststate pos
    obtain ⟨c, p, hrun, _, hc, hpolls, hlow, hsat⟩ :=
      measure_spec line laststate fuel pos 0 (by omega) (by omega)
    refine ⟨c, p, hrun, ?_, hc, ?_, ?_, ?_, ?_⟩
    · simp [lineMeasure, hrun, bind, Except.bind, pure, Except.pure]
    · by_cases h : c = 255
      · have := hsat h; omega
      · have := (hlow (by omega)).1; omega
    · intro k hk; exact hpolls k (by omega)
    · intro h
      have := hlow h
      simpa using this
    · intro h
      have := hsat h
      omega
  · obtain ⟨log, hrun, hlen, hall, hdrop, hlast⟩ :=
      sampleLog_spec (lineMeasure fuel line) (lineMeasure_ok fuel hfuel line) MAXTIMINGS
        (HIGH, 0)
    obtain ⟨states, hslen, hshead, hchain⟩ :=
      sampleLog_chain (lineMeasure fuel line) MAXTIMINGS (HIGH, 0) log hrun
    obtain ⟨hrec1, hrec2⟩ := recorded_of_last log hdrop
    refine ⟨log, states, hrun, hslen, hshead, hchain, hlen, hall, hdrop, hlast, hrec1, hrec2,
      ?_, read_eq_decodeAll fuel line init log hrun, recorded_lt log hall,
      read_eq_readTrace fuel line init log hrun, ?_⟩
    · intro fr
      exact forLoop_eq_decodeAll _ _ _ _ _ _ (by decide) hrun
    · rw [read_eq_readTrace fuel line init log hrun]
      exact readTrace_fuel _ _

theorem bounded_sampling_witness :
    255 ≤ 255 ∧
    ((∀ laststate pos, ∃ c p, measure fadingLine laststate 255 pos 0 = .ok (c, p) ∧
      lineMeasure 255 fadingLine (laststate, pos) = .ok (c, (fadingLine p, p + 1)) ∧
      c ≤ 255 ∧ p ≤ pos + 255 ∧ (∀ k, k < c → fadingLine (pos + k) = laststate) ∧
      (c < 255 → p = pos + c + 1 ∧ fadingLine (pos + c) ≠ laststate) ∧
      (c = 255 → p = pos + 255)) ∧
    ∃ (log : List Nat) (states : List (Bool × Nat)),
      sampleLog (lineMeasure 255 fadingLine) MAXTIMINGS (HIGH, 0) = .ok log ∧
      states.length = log.length + 1 ∧ states[0]? = some (HIGH, 0) ∧
      (∀ k, k < log.length → ∃ a b c, states[k]? = some a ∧ states[k + 1]? = some b ∧
        log[k]? = some c ∧ lineMeasure 255 fadingLine a = .ok (c, b)) ∧
      log.length ≤ 85 ∧ (∀ c ∈ log, c ≤ 255) ∧ (∀ c ∈ log.dropLast, c < 255) ∧
      (log.length = 85 ∨ log.getLast? = some 255) ∧
      (log.getLast? = some 255 → recorded log = log.dropLast) ∧
      (log.getLast? ≠ some 255 → recorded log = log) ∧
      (∀ fr, forLoop (lineMeasure 255 fadingLine) MAXTIMINGS 0 (HIGH, 0) fr =
        decodeAll 0 (recorded log) fr) ∧
      read_DTH11_data 255 fadingLine ⟨1, 2, 3, 4, 5⟩ =
        (decodeAll 0 (recorded log) ⟨⟨0, 0, 0, 0, 0⟩, 0⟩).map finish ∧
      (∀ c ∈ recorded log, c < 255) ∧
      read_DTH11_data 255 fadingLine ⟨1, 2, 3, 4, 5⟩ =
        readTrace (recorded log) ⟨1, 2, 3, 4, 5⟩ ∧
      read_DTH11_data 255 fadingLine ⟨1, 2, 3, 4, 5⟩ ≠ .error .outOfFuel) :=
  ⟨by decide, bounded_sampling 255 (by decide) fadingLine ⟨1, 2, 3, 4, 5⟩⟩

set_option maxRecDepth 1000000 in
/-- A line that stops changing in the middle of the data: measurement 14, at
an even data index, saturates after 14 recorded measurements.  The loop has
then decoded the five bits of indices 4, 6, 8, 10 and 12 and not the
saturated measurement, which as a sixth bit would have given another state;
the attempt fails. -/
theorem saturated_not_decoded (init : Data) :
    sampleLog (lineMeasure 255 fadingLine) MAXTIMINGS (HIGH, 0) =
      .ok [20, 18, 18, 18, 18, 18, 18, 18, 18, 18, 18, 18, 18, 18, 255] ∧
    forLoop (lineMeasure 255 fadingLine) MAXTIMINGS 0 (HIGH, 0) ⟨⟨0, 0, 0, 0, 0⟩, 0⟩ =
      .ok ⟨⟨31, 0, 0, 0, 0⟩, 5⟩ ∧
    decodeAll 0 [20, 18, 18, 18, 18, 18, 18, 18, 18, 18, 18, 18, 18, 18]
      ⟨⟨0, 0, 0, 0, 0⟩, 0⟩ = .ok ⟨⟨31, 0, 0, 0, 0⟩, 5⟩ ∧
    decodeAll 0 [20, 18, 18, 18, 18, 18, 18, 18, 18, 18, 18, 18, 18, 18, 255]
      ⟨⟨0, 0, 0, 0, 0⟩, 0⟩ = .ok ⟨⟨63, 0, 0, 0, 0⟩, 6⟩ ∧
    read_DTH11_data 255 fadingLine init = .ok (0, ⟨31, 0, 0, 0, 0⟩) := by
  have h : sampleLog (lineMeasure 255 fadingLine) MAXTIMINGS (HIGH, 0) =
      .ok [20, 18, 18, 18, 18, 18, 18, 18, 18, 18, 18, 18, 18, 18, 255] := by rfl
  refine ⟨h, by rfl, by rfl, by rfl, ?_⟩
  rw [read_eq_decodeAll _ _ _ _ h]
  rfl

set_option maxRecDepth 100000 in
/-- A line that never changes: the first measurement saturates after 255
polls, nothing is decoded and the attempt fails. -/
theorem stuck_line (init : Data) :
    sampleLog (lineMeasure 255 (fun _ => true)) MAXTIMINGS (HIGH, 0) = .ok [255] ∧
    read_DTH11_data 255 (fun _ => true) init = .ok (0, ⟨0, 0, 0, 0, 0⟩) := by
  have h : sampleLog (lineMeasure 255 (fun _ => true)) MAXTIMINGS (HIGH, 0) = .ok [255] := by
    rfl
  refine ⟨h, ?_⟩
  rw [read_eq_readTrace _ _ _ _ h, readTrace_eq]
  rfl

/-- C8. Each read attempt is deterministic and independent of earlier
attempts: the result (return value and the five bytes) does not depend on
what `dht11_data` held before the call, on a trace and on a line alike, and
two lines sampled to the same recorded trace give the same result. -/
theorem read_deterministic :
    (∀ (t : List Nat) (init1 init2 : Data), readTrace t init1 = readTrace t init2) ∧
    (∀ (fuel : Nat) (line : Nat → Bool) (init1 init2 : Data),
      read_DTH11_data fuel line init1 = read_DTH11_data fuel line init2) ∧
    (∀ (fuel : Nat) (line1 line2 : Nat → Bool) (log1 log2 : List Nat) (init1 init2 : Data),
      sampleLog (lineMeasure fuel line1) MAXTIMINGS (HIGH, 0) = .ok log1 →
      sampleLog (lineMeasure fuel line2) MAXTIMINGS (HIGH, 0) = .ok log2 →
      recorded log1 = recorded log2 →
      read_DTH11_data fuel line1 init1 = read_DTH11_data fuel line2 init2) := by
  have htrace : ∀ (t : List Nat) (init1 init2 : Data),
      readTrace t init1 = readTrace t init2 := by
    intro t init1 init2
    rw [readTrace_eq, readTrace_eq]
  refine ⟨htrace, ?_, ?_⟩
  · intro fuel line init1 init2
    simp only [read_DTH11_data, clear_eq]
  · intro fuel line1 line2 log1 log2 init1 init2 h1 h2 hrec
    rw [read_eq_readTrace _ _ _ _ h1, read_eq_readTrace _ _ _ _ h2, hrec]
    exact htrace _ _ _

set_option maxRecDepth 100000 in
theorem read_deterministic_witness :
    read_DTH11_data 255 (fun _ => true) ⟨50, 0, 24, 5, 79⟩ =
      read_DTH11_data 255 (fun n => decide (n < 300)) ⟨0, 0, 0, 0, 0⟩ :=
  read_deterministic.2.2 255 (fun _ => true) (fun n => decide (n < 300)) [255] [255]
    ⟨50, 0, 24, 5, 79⟩ ⟨0, 0, 0, 0, 0⟩ (by rfl) (by rfl) (by rfl)

/-- C9, where the code departs from it: `strncpy` of four digits writes no
terminating NUL, so `atoi` reads on into what `strTemp` held before; with a
digit `5` at `strTemp[4]` the argument `-m:1234` gives `nMinutes = 12345`,
not the value 1234 of its first four digits and above 9999. -/
theorem option_reads_past_four_digits :
    (parseArg [45, 109, 58, 49, 50, 51, 52]
        (initialOptions [0, 0, 0, 0, 53, 0, 0, 0, 0, 0])).map (fun o => o.nMinutes) =
      .ok 12345 := by
  rfl

/-- With no NUL and no other non-digit left in `strTemp`, `atoi` reads past
the end of the 10-byte buffer. -/
theorem option_reads_past_buffer :
    (parseArg [45, 109, 58, 49, 50, 51, 52]
        (initialOptions [55, 55, 55, 55, 55, 55, 55, 55, 55, 55])).map
        (fun o => o.nMinutes) = .error (.outOfBounds 10) := by
  rfl

set_option maxRecDepth 100000 in
/-- C10, where the code departs from it: the frame `(100, 0, 0, 0, 100)` is
accepted by the checksum test, `%02d` prints its first byte with three
digits, and the nine characters and the NUL do not fit the 9-byte buffer
`strHumiTemp`. -/
theorem record_layout_overflow (init : Data) :
    readTrace (encodeTrace ⟨100, 0, 0, 0, 100⟩) init = .ok (1, ⟨100, 0, 0, 0, 100⟩) ∧
    (fmtd 2 100 ++ fmtd 2 0 ++ fmtd 2 0 ++ fmtd 2 0).length = 9 ∧
    WriteReading ⟨45, 30, 12, 15, 6, 117⟩ ⟨100, 0, 0, 0, 100⟩ = .error (.outOfBounds 9) := by
  refine ⟨?_, by rfl, by rfl⟩
  rw [readTrace_eq]; rfl

/-- Bytes below 100 are printed by `%02d` with exactly two characters. -/
theorem fmtd_two_digits : ∀ n, n < 100 → (fmtd 2 n).length = 2 := by
  decide

/-- The record of the specification's scenario: 2017-07-15 12:30:45 with
bytes `(50, 0, 24, 5)` gives the 22 characters `2017071512304550002405`. -/
theorem record_layout_example :
    WriteReading ⟨45, 30, 12, 15, 6, 117⟩ ⟨50, 0, 24, 5, 79⟩ =
      .ok [50, 48, 49, 55, 48, 55, 49, 53, 49, 50, 51, 48, 52, 53,
        53, 48, 48, 48, 50, 52, 48, 53] := by
  rfl

end DHT11
